import Mathlib

/-!
Verification of the LZJD (Lempel-Ziv Jaccard Distance) crate.

Shallow embedding of `src/lz_dict.rs` and `src/main.rs`:
bytes are `Nat` (values `< 256`), 64-bit hash values are `Nat` (`u64`) and
`Int` (`i64`), a Rust `BuildHasher` is an abstract state machine, fallible
parsing returns `Option`, and the `f64` Jaccard similarity is modelled over
`ℚ` with the `0.0/0.0 = NaN` case represented as `none`.
-/

namespace Lzjd

/-- A Rust `core::hash::BuildHasher` together with its `Hasher` type:
`build` makes a fresh hasher, `write_u8` feeds one byte, `finish`
reads the current `u64` digest without mutating. -/
structure BuildHasher (σ : Type) where
  build : σ
  write_u8 : σ → Nat → σ
  finish : σ → Nat

/-- Reinterpreting a `u64` as an `i64`, as done by
`bincode::serialize(&u64)` followed by `bincode::deserialize::<i64>`
(little-endian byte reinterpretation, i.e. two's complement). -/
def toI64 (h : Nat) : Int :=
  if h % 2 ^ 64 < 2 ^ 63 then ((h % 2 ^ 64 : Nat) : Int)
  else ((h % 2 ^ 64 : Nat) : Int) - 2 ^ 64

/-- One iteration of the byte loop of `LZDict::from_bytes_stream`
(src/lz_dict.rs lines 100-108): feed the byte, read the hash, and if the
hash is new to the (unbounded) set, record it and reset the hasher.
The `HashSet` is modelled as a duplicate-free list. -/
def streamStep {σ : Type} (bh : BuildHasher σ) (acc : List Int × σ) (byte : Nat) :
    List Int × σ :=
  let s := bh.write_u8 acc.2 byte
  let h := toI64 (bh.finish s)
  if h ∈ acc.1 then (acc.1, s) else (h :: acc.1, bh.build)

/-- The set of hashes accumulated by `LZDict::from_bytes_stream` before
the final sort-and-truncate. -/
def streamSeen {σ : Type} (seq : List Nat) (bh : BuildHasher σ) : List Int :=
  (seq.foldl (streamStep bh) ([], bh.build)).1

/-- `LZDict::from_bytes_stream` (src/lz_dict.rs lines 92-114): collect the
set of hashes, sort ascending, and keep the first 1000. -/
def from_bytes_stream {σ : Type} (seq : List Nat) (bh : BuildHasher σ) : List Int :=
  (List.insertionSort (· ≤ ·) (streamSeen seq bh)).take 1000

/-- Modelled from the spec (§4.1 `build_streaming`), for comparison with
`from_bytes_stream`: one step of the online bounded-sketch algorithm.
Feed the byte and take `candidate = finish()`; if the candidate is already
in the sketch do nothing further; otherwise insert it at its sorted
position when the sketch has fewer than `K = 1024` entries, else evict the
maximum and insert when the candidate is smaller than the maximum, else
discard it — and in every new-candidate case reset the hasher. -/
def specStreamStep {σ : Type} (bh : BuildHasher σ) (acc : List Int × σ) (byte : Nat) :
    List Int × σ :=
  let s := bh.write_u8 acc.2 byte
  let c := toI64 (bh.finish s)
  if c ∈ acc.1 then (acc.1, s)
  else if acc.1.length < 1024 then (List.orderedInsert (· ≤ ·) c acc.1, bh.build)
  else if c < acc.1.getLastD 0 then
    (List.orderedInsert (· ≤ ·) c acc.1.dropLast, bh.build)
  else (acc.1, bh.build)

/-- Modelled from the spec (§4.1): the online streaming-approximate
sketch builder `build_streaming(byte_stream, hasher_factory)`. -/
def build_streaming {σ : Type} (seq : List Nat) (bh : BuildHasher σ) : List Int :=
  (seq.foldl (specStreamStep bh) ([], bh.build)).1

/-- One iteration of the parsing loop of `LZDict::from_bytes_stream_lz78`
(src/lz_dict.rs lines 48-57): look for the first table entry equal to
`(last_matching_index, byte)`; on a hit move `last_matching_index` there,
otherwise append the pair and reset `last_matching_index` to 0. -/
def lz78Step (acc : List (Nat × Nat) × Nat) (byte : Nat) : List (Nat × Nat) × Nat :=
  match acc.1.findIdx? (fun e => e.1 == acc.2 && e.2 == byte) with
  | some idx => (acc.1, idx)
  | none => (acc.1 ++ [(acc.2, byte)], 0)

/-- The phrase table built by `LZDict::from_bytes_stream_lz78`: it starts
as `[(0, 0)]` (the pushed root) and is folded over the byte stream. -/
def lz78Dict (seq : List Nat) : List (Nat × Nat) :=
  (seq.foldl lz78Step ([(0, 0)], 0)).1

/-- `LZDict::hash_entry` (src/lz_dict.rs lines 83-90): walk the parent
chain to the root, then feed the bytes root-to-leaf into the hasher.
The recursion is run on a fuel argument; in the real table every parent
index is smaller than its child's index, so fuel `index` suffices. -/
def hash_entry {σ : Type} (bh : BuildHasher σ) (dict : List (Nat × Nat)) :
    Nat → Nat → σ → σ
  | 0, _, s => s
  | _ + 1, 0, s => s
  | fuel + 1, idx, s =>
    let e := dict.getD idx (0, 0)
    bh.write_u8 (hash_entry bh dict fuel e.1 s) e.2

/-- The sketch-maintenance step of `LZDict::from_bytes_stream_lz78`
(src/lz_dict.rs lines 69-77): `binary_search` miss means the hash is new;
insert at the sorted position when below 1024 entries, else pop the
greatest and insert when the hash is smaller than the greatest. -/
def lz78InsertHash (hashes : List Int) (h : Int) : List Int :=
  if h ∈ hashes then hashes
  else if hashes.length < 1024 then List.orderedInsert (· ≤ ·) h hashes
  else if h < hashes.getLastD 0 then
    List.orderedInsert (· ≤ ·) h hashes.dropLast
  else hashes

/-- `LZDict::from_bytes_stream_lz78` (src/lz_dict.rs lines 39-81): build
the phrase table, then hash every phrase except the root (indices
`1..dict.len()`) and maintain the bounded sorted sketch. -/
def from_bytes_stream_lz78 {σ : Type} (seq : List Nat) (bh : BuildHasher σ) :
    List Int :=
  let dict := lz78Dict seq
  (List.range dict.length).drop 1 |>.foldl
    (fun hashes i =>
      lz78InsertHash hashes (toI64 (bh.finish (hash_entry bh dict i i bh.build))))
    []

/-- Modelled from the spec (§4.2 and claim C3): canonical LZ78 parsing in
which the synthetic root (phrase 0) is never itself a matchable phrase —
only previously *appended* phrases (indices ≥ 1) can match. -/
def lz78CanonicalStep (acc : List (Nat × Nat) × Nat) (byte : Nat) :
    List (Nat × Nat) × Nat :=
  match (acc.1.drop 1).findIdx? (fun e => e.1 == acc.2 && e.2 == byte) with
  | some idx => (acc.1, idx + 1)
  | none => (acc.1 ++ [(acc.2, byte)], 0)

/-- Modelled from the spec (§4.2): the canonical LZ78 phrase table, with
the same `[(0, 0)]` root representation as the code. -/
def lz78Canonical (seq : List Nat) : List (Nat × Nat) :=
  (seq.foldl lz78CanonicalStep ([(0, 0)], 0)).1

/-- Inner loop of `intersection_len`, advancing the second cursor while
its head is the smaller; `f` continues the walk with the first cursor
advanced (that is, `f = intersection_len xs`). -/
def interGo (x : Int) (f : List Int → Nat) : List Int → Nat
  | [] => 0
  | y :: ys => if x < y then f (y :: ys) else if y < x then interGo x f ys else f ys + 1

/-- `LZDict::intersection_len` (src/lz_dict.rs lines 116-134): linear
merge walk over the two entry lists with cursors `i` and `j`; the walk
steps `i` when `self[i] ≤ other[j]`, steps `j` when `self[i] ≥ other[j]`,
counts one intersection element when they are equal (both cursors step),
and stops when either cursor exhausts its list. -/
def intersection_len : List Int → List Int → Nat
  | [], _ => 0
  | x :: xs, ys => interGo x (intersection_len xs) ys

/-- `LZDict::jaccard_similarity` (src/lz_dict.rs lines 138-144) over `ℚ`.
The Rust code always divides `intersection_len as f64 / union_len as f64`;
when both sketches are empty this is `0.0 / 0.0 = NaN`, modelled as
`none`. For a nonzero union the `f64` quotient is the correctly rounded
rational `i / u`, whose sign, symmetry and `[0, 1]` bounds coincide with
the exact rational value modelled here. -/
def jaccard_similarity (a b : List Int) : Option ℚ :=
  let i := intersection_len a b
  let u := a.length + b.length - i
  if u = 0 then none else some ((i : ℚ) / (u : ℚ))

/-- `From<Vec<i64>> for LZDict` (src/lz_dict.rs lines 175-181):
`entries.sort(); entries.truncate(1024)`. -/
def lzdict_from_vec (v : List Int) : List Int :=
  (List.insertionSort (· ≤ ·) v).take 1024

/-- The standard base64 alphabet: index `0..63` to character. -/
def encodeChar (i : Nat) : Char :=
  Char.ofNat
    (if i < 26 then 65 + i
     else if i < 52 then 97 + (i - 26)
     else if i < 62 then 48 + (i - 52)
     else if i = 62 then 43
     else 47)

/-- The standard base64 alphabet: character to index, `none` off-alphabet. -/
def decodeChar (c : Char) : Option Nat :=
  let n := c.toNat
  if 65 ≤ n ∧ n ≤ 90 then some (n - 65)
  else if 97 ≤ n ∧ n ≤ 122 then some (n - 97 + 26)
  else if 48 ≤ n ∧ n ≤ 57 then some (n - 48 + 52)
  else if n = 43 then some 62
  else if n = 47 then some 63
  else none

/-- `base64::encode` with the standard padded alphabet: 3 bytes per 4
characters, the final partial group padded with `=`. -/
def base64Encode : List Nat → List Char
  | b0 :: b1 :: b2 :: rest =>
    encodeChar (b0 / 4) :: encodeChar (b0 % 4 * 16 + b1 / 16) ::
      encodeChar (b1 % 16 * 4 + b2 / 64) :: encodeChar (b2 % 64) :: base64Encode rest
  | [b0, b1] =>
    [encodeChar (b0 / 4), encodeChar (b0 % 4 * 16 + b1 / 16),
      encodeChar (b1 % 16 * 4), Char.ofNat 61]
  | [b0] =>
    [encodeChar (b0 / 4), encodeChar (b0 % 4 * 16), Char.ofNat 61, Char.ofNat 61]
  | [] => []

/-- `base64::decode`: 4 characters per 3 bytes, padding allowed only in
the final group, failure on off-alphabet characters or a bad shape. -/
def base64Decode : List Char → Option (List Nat)
  | [] => some []
  | c0 :: c1 :: c2 :: c3 :: rest =>
    (decodeChar c0).bind fun v0 =>
      (decodeChar c1).bind fun v1 =>
        if c2 = Char.ofNat 61 then
          if c3 = Char.ofNat 61 ∧ rest = [] then some [v0 * 4 + v1 / 16] else none
        else
          (decodeChar c2).bind fun v2 =>
            if c3 = Char.ofNat 61 then
              if rest = [] then some [v0 * 4 + v1 / 16, v1 % 16 * 16 + v2 / 4]
              else none
            else
              (decodeChar c3).bind fun v3 =>
                (base64Decode rest).map fun bs =>
                  (v0 * 4 + v1 / 16) :: (v1 % 16 * 16 + v2 / 4) ::
                    (v2 % 4 * 64 + v3) :: bs
  | _ => none

/-- The `u64` two's-complement image of an `i64` value. -/
def toU64 (v : Int) : Nat :=
  (v % (2 ^ 64 : Int)).toNat

/-- `bincode::serialize(&i64)`: the 8 little-endian bytes of the
two's-complement representation. -/
def i64ToBytes (v : Int) : List Nat :=
  let w := toU64 v
  [w % 256, w / 256 % 256, w / 256 ^ 2 % 256, w / 256 ^ 3 % 256,
    w / 256 ^ 4 % 256, w / 256 ^ 5 % 256, w / 256 ^ 6 % 256, w / 256 ^ 7 % 256]

/-- `bincode::deserialize::<i64>` of an 8-byte chunk: combine the bytes
little-endian and reinterpret as a signed 64-bit value. -/
def bytesToI64 (bs : List Nat) : Int :=
  toI64 (bs.foldr (fun b acc => b + 256 * acc) 0)

/-- The chunking loop of `LZDict::from_base64_string` (src/lz_dict.rs
lines 20-32): for `i in 0..bytes.len() / 8`, deserialize the 8-byte
chunk `bytes[i*8..i*8+8]`. Trailing bytes beyond the last full chunk
are never visited. -/
def parseChunks (bytes : List Nat) : List Int :=
  (List.range (bytes.length / 8)).map fun i => bytesToI64 ((bytes.drop (i * 8)).take 8)

/-- `LZDict::from_base64_string` (src/lz_dict.rs lines 18-35): base64
decode, then deserialize consecutive 8-byte chunks. The only failure
points are the base64 decode and `bincode` deserialization (which cannot
fail on an exactly-8-byte chunk). -/
def from_base64_string (s : String) : Option (List Int) :=
  (base64Decode s.data).map parseChunks

/-- `LZDict::to_string` (src/lz_dict.rs lines 147-154): serialize every
entry to its 8 bytes, concatenate, base64 encode. -/
def lzdict_to_string (entries : List Int) : String :=
  ⟨base64Encode (entries.flatMap i64ToBytes)⟩

/-- `2 ^ e` over ℚ for an integer exponent. -/
def pow2 (e : Int) : ℚ := (2 : ℚ) ^ e

/-- The binary exponent of a positive rational `q`: the unique `e` with
`2 ^ e ≤ q < 2 ^ (e + 1)`, computed from the bit lengths of the
numerator and denominator. -/
def qexp (q : ℚ) : Int :=
  let g : Int := (Nat.log 2 q.num.toNat : Int) - (Nat.log 2 q.den : Int)
  if pow2 g ≤ q then g else g - 1

/-- Round a rational to the nearest integer, ties to even. -/
def rndNE (m : ℚ) : Int :=
  if m - ⌊m⌋ < 1 / 2 then ⌊m⌋
  else if 1 / 2 < m - ⌊m⌋ then ⌊m⌋ + 1
  else if ⌊m⌋ % 2 = 0 then ⌊m⌋ else ⌊m⌋ + 1

/-- Round a nonnegative rational to the nearest IEEE binary64 value:
round to nearest with ties to even at a 53-bit significand. The exponent
is unbounded, which agrees with binary64 on the whole normal range —
every value reachable in this program (quotients `i / u` of sketch
lengths and their 100-fold) lies far inside it. -/
def flRound (q : ℚ) : ℚ :=
  if q ≤ 0 then 0
  else (rndNE (q / pow2 (qexp q - 52)) : ℚ) * pow2 (qexp q - 52)

/-- The integer similarity computed by `compare` (src/main.rs line 261):
`(dict_a.similarity(dict_b) * 100.).round() as u32`, modelling the `f64`
pipeline step by step. `intersection_len as f64 / union_len as f64` is
the correctly rounded double `flRound (i / u)` (the integer-to-double
casts are exact at reachable magnitudes, far below `2^53`); `* 100.` is
a second correct rounding; `.round()` rounds half away from zero, which
for a nonnegative value is `⌊y + 1/2⌋`; and `as u32` truncates — with
the `0.0 / 0.0 = NaN` of the empty/empty pair casting to 0. -/
def simInt (a b : List Int) : Nat :=
  let i := intersection_len a b
  let u := a.length + b.length - i
  if u = 0 then 0
  else (⌊flRound (100 * flRound ((i : ℚ) / (u : ℚ))) + 1 / 2⌋).toNat

/-- The pairs `(i, j)` evaluated by `compare` (src/main.rs lines 252-268):
row `i` ranges over `dicts_a`, and `j` starts at `i + 1` when both
arguments are the same collection (`same`), else at 0. -/
def comparePairs (na nb : Nat) (same : Bool) : List (Nat × Nat) :=
  (List.range na).flatMap fun i =>
    ((List.range nb).drop (if same then i + 1 else 0)).map fun j => (i, j)

/-- `compare` (src/main.rs lines 246-284) as the list of emitted result
records: every evaluated pair whose integer similarity reaches the
threshold contributes `(name_a, name_b, similarity)`. The rayon
fold/reduce is modelled sequentially; it evaluates the same pairs. -/
def compareResults (da db : List (List Int × String)) (same : Bool)
    (threshold : Nat) : List (String × String × Nat) :=
  (comparePairs da.length db.length same).filterMap fun p =>
    if threshold ≤ simInt (da.getD p.1 ([], "")).1 (db.getD p.2 ([], "")).1 then
      some ((da.getD p.1 ([], "")).2, (db.getD p.2 ([], "")).2,
        simInt (da.getD p.1 ([], "")).1 (db.getD p.2 ([], "")).1)
    else none

/-! ### A concrete hasher and byte stream with 1001 distinct hashes

`ceBH` is a deterministic `BuildHasher`: the state is a `Nat` starting at
0, each written byte `b` maps state `s` to `s * 256 + b + 1`, and
`finish` reads the state. `ceStream` is built from groups
`0^p ++ [b]` (`p` zeros then byte `b`): the zeros re-produce hashes that
are already recorded, so the group contributes exactly one new hash
`ceV p * 256 + b + 1`, where `ceV p` is the hash of `0^p`. Four phases
(256 + 256 + 256 + 233 groups) produce 1001 distinct hash values. -/

def ceBH : BuildHasher Nat :=
  ⟨0, fun s b => s * 256 + b + 1, fun s => s⟩

/-- Hash of a run of `p` zero bytes under `ceBH` from a fresh state. -/
def ceV : Nat → Nat
  | 0 => 0
  | p + 1 => ceV p * 256 + 1

/-- The hash contributed by the group `0^p ++ [b]` under `ceBH`. -/
def ceW (p b : Nat) : Int := ((ceV p * 256 + b + 1 : Nat) : Int)

/-- One group of the stream: `p` zero bytes then the byte `b`. -/
def ceGroup (p b : Nat) : List Nat := List.replicate p 0 ++ [b]

/-- One phase: the groups `0^p ++ [b]` for `b = 0, …, n-1`. -/
def cePhase (p n : Nat) : List Nat := (List.range n).flatMap (ceGroup p)

/-- The counterexample stream: 2468 bytes, 1001 distinct hashes. -/
def ceStream : List Nat :=
  cePhase 0 256 ++ (cePhase 1 256 ++ (cePhase 2 256 ++ cePhase 3 233))

/-- The hashes contributed by one phase, newest first (the order in
which the code model conses them). -/
def ceBand (p n : Nat) : List Int := (List.range n).reverse.map (ceW p)

/-- The hashes contributed by one phase in ascending order (the order in
which the spec's bounded sketch keeps them). -/
def ceBandAsc (p n : Nat) : List Int := (List.range n).map (ceW p)

/-! ### Helper lemmas -/

theorem toI64_eq_of_lt {h : Nat} (hh : h < 2 ^ 63) : toI64 h = (h : Int) := by
  have h64 : h % 2 ^ 64 = h := Nat.mod_eq_of_lt (lt_trans hh (by norm_num))
  unfold toI64
  rw [h64, if_pos hh]

/-- Inserting a value not present into a strictly sorted list with the
`≤`-ordered insert keeps the list strictly sorted. -/
theorem sorted_lt_orderedInsert {c : Int} :
    ∀ {l : List Int}, l.Sorted (· < ·) → c ∉ l →
      (List.orderedInsert (· ≤ ·) c l).Sorted (· < ·)
  | [], _, _ => by simp [List.orderedInsert]
  | b :: l, hs, hc => by
    rw [List.orderedInsert]
    rcases List.sorted_cons.mp hs with ⟨hb, hl⟩
    by_cases hcb : c ≤ b
    · have hcb' : c < b := lt_of_le_of_ne hcb (by intro h; exact hc (h ▸ List.mem_cons_self b l))
      rw [if_pos hcb]
      exact List.sorted_cons.mpr ⟨by
        intro y hy
        rcases List.mem_cons.mp hy with rfl | hy
        · exact hcb'
        · exact lt_trans hcb' (hb y hy), hs⟩
    · simp only [if_neg hcb]
      refine List.sorted_cons.mpr ⟨?_, sorted_lt_orderedInsert hl (fun h => hc (List.mem_cons_of_mem _ h))⟩
      intro y hy
      rcases (List.mem_orderedInsert _).mp hy with rfl | hy
      · exact lt_of_not_le hcb
      · exact hb y hy

/-- The `≤`-ordered insert of a value greater than every element appends. -/
theorem orderedInsert_eq_append {c : Int} :
    ∀ {l : List Int}, (∀ x ∈ l, x < c) → List.orderedInsert (· ≤ ·) c l = l ++ [c]
  | [], _ => rfl
  | b :: l, h => by
    have hbc : ¬ c ≤ b := not_le_of_lt (h b (List.mem_cons_self b l))
    rw [List.orderedInsert, if_neg hbc,
      orderedInsert_eq_append (fun x hx => h x (List.mem_cons_of_mem _ hx))]
    rfl

/-- A `≤`-sorted list without duplicates is `<`-sorted. -/
theorem sorted_lt_of_sorted_le_nodup {l : List Int} (hs : l.Sorted (· ≤ ·))
    (hn : l.Nodup) : l.Sorted (· < ·) :=
  (List.Pairwise.and hs hn).imp fun h => lt_of_le_of_ne h.1 h.2

/-! ### C2: invariants of both sketch builders -/

theorem streamSeen_nodup {σ : Type} (bh : BuildHasher σ) (seq : List Nat) :
    (streamSeen seq bh).Nodup := by
  suffices h : ∀ (l : List Nat) (acc : List Int × σ), acc.1.Nodup →
      (l.foldl (streamStep bh) acc).1.Nodup by
    exact h seq ([], bh.build) List.nodup_nil
  intro l
  induction l with
  | nil => exact fun acc h => h
  | cons b l ih =>
    intro acc hacc
    rw [List.foldl_cons]
    apply ih
    by_cases hmem : toI64 (bh.finish (bh.write_u8 acc.2 b)) ∈ acc.1
    · simp only [streamStep, if_pos hmem]
      exact hacc
    · simp only [streamStep, if_neg hmem]
      exact List.nodup_cons.mpr ⟨hmem, hacc⟩

theorem lz78InsertHash_invariant {hashes : List Int} {h : Int}
    (hs : hashes.Sorted (· < ·)) (hlen : hashes.length ≤ 1024) :
    (lz78InsertHash hashes h).Sorted (· < ·) ∧ (lz78InsertHash hashes h).length ≤ 1024 := by
  unfold lz78InsertHash
  by_cases hmem : h ∈ hashes
  · simp only [if_pos hmem]
    exact ⟨hs, hlen⟩
  · simp only [if_neg hmem]
    by_cases hsmall : hashes.length < 1024
    · simp only [if_pos hsmall]
      exact ⟨sorted_lt_orderedInsert hs hmem,
        by rw [List.orderedInsert_length]; omega⟩
    · simp only [if_neg hsmall]
      split
      · have hsub := List.dropLast_sublist hashes
        refine ⟨sorted_lt_orderedInsert (hs.sublist hsub)
          (fun hc => hmem (hsub.subset hc)), ?_⟩
        rw [List.orderedInsert_length, List.length_dropLast]
        omega
      · exact ⟨hs, hlen⟩

/-- C2: for every byte stream and hasher factory, each of
`from_bytes_stream` and `from_bytes_stream_lz78` returns at most 1024
entries, in strictly ascending order, with no duplicates. -/
theorem C2_builder_invariants {σ : Type} (bh : BuildHasher σ) (seq : List Nat) :
    ((from_bytes_stream seq bh).length ≤ 1024
      ∧ (from_bytes_stream seq bh).Sorted (· < ·)
      ∧ (from_bytes_stream seq bh).Nodup)
    ∧ ((from_bytes_stream_lz78 seq bh).length ≤ 1024
      ∧ (from_bytes_stream_lz78 seq bh).Sorted (· < ·)
      ∧ (from_bytes_stream_lz78 seq bh).Nodup) := by
  constructor
  · have hnd : (List.insertionSort (· ≤ ·) (streamSeen seq bh)).Nodup :=
      (List.perm_insertionSort _ _).nodup_iff.mpr (streamSeen_nodup bh seq)
    have hsorted : (List.insertionSort (· ≤ ·) (streamSeen seq bh)).Sorted (· < ·) :=
      sorted_lt_of_sorted_le_nodup (List.sorted_insertionSort _ _) hnd
    have htake : (from_bytes_stream seq bh).Sorted (· < ·) :=
      hsorted.sublist (List.take_sublist _ _)
    refine ⟨?_, htake, htake.nodup⟩
    unfold from_bytes_stream
    calc (List.take 1000 _).length ≤ 1000 := by
          rw [List.length_take]; omega
      _ ≤ 1024 := by norm_num
  · have main : ∀ (l : List Nat) (hashes : List Int),
        hashes.Sorted (· < ·) → hashes.length ≤ 1024 →
        ((l.foldl (fun hs i =>
            lz78InsertHash hs (toI64 (bh.finish (hash_entry bh (lz78Dict seq) i i bh.build)))) hashes).Sorted (· < ·)
          ∧ (l.foldl (fun hs i =>
            lz78InsertHash hs (toI64 (bh.finish (hash_entry bh (lz78Dict seq) i i bh.build)))) hashes).length ≤ 1024) := by
      intro l
      induction l with
      | nil => exact fun hashes h1 h2 => ⟨h1, h2⟩
      | cons i l ih =>
        intro hashes h1 h2
        rw [List.foldl_cons]
        obtain ⟨h1', h2'⟩ := lz78InsertHash_invariant h1 h2
        exact ih _ h1' h2'
    obtain ⟨hsort, hlen⟩ := main ((List.range (lz78Dict seq).length).drop 1) []
      List.sorted_nil (by simp)
    exact ⟨hlen, hsort, hsort.nodup⟩

/-! ### C10: the public `From<Vec<i64>>` conversion -/

/-- C10: `LZDict::from(v)` yields `v` sorted ascending and truncated to
its first 1024 elements: the result is `≤`-sorted, its length is
`min (v.length) 1024`, it is a prefix of a sorted permutation of `v`, and
duplicates are retained (`[7, 7]` stays `[7, 7]`), so the result need not
be duplicate-free. -/
theorem C10_from_vec (v : List Int) :
    (lzdict_from_vec v).Sorted (· ≤ ·)
    ∧ (lzdict_from_vec v).length = min 1024 v.length
    ∧ (∃ rest, List.insertionSort (· ≤ ·) v = lzdict_from_vec v ++ rest)
    ∧ (List.insertionSort (· ≤ ·) v).Perm v
    ∧ ¬ (lzdict_from_vec [7, 7]).Nodup := by
  refine ⟨(List.sorted_insertionSort _ _).sublist (List.take_sublist _ _), ?_, ?_, ?_, ?_⟩
  · rw [lzdict_from_vec, List.length_take, List.length_insertionSort]
  · exact ⟨(List.insertionSort (· ≤ ·) v).drop 1024, (List.take_append_drop _ _).symm⟩
  · exact List.perm_insertionSort _ _
  · decide

/-! ### C7 and C8: Jaccard similarity -/

/-- The merge-walk step equation for two non-empty lists. -/
theorem intersection_len_cons (x y : Int) (xs ys : List Int) :
    intersection_len (x :: xs) (y :: ys) =
      if x < y then intersection_len xs (y :: ys)
      else if y < x then intersection_len (x :: xs) ys
      else intersection_len xs ys + 1 := rfl

theorem intersection_len_nil_right : ∀ a : List Int, intersection_len a [] = 0
  | [] => rfl
  | _ :: _ => rfl

theorem intersection_len_comm : ∀ a b : List Int,
    intersection_len a b = intersection_len b a
  | [], b => by simp [intersection_len, intersection_len_nil_right]
  | a :: as, [] => by rw [intersection_len_nil_right]; rfl
  | x :: xs, y :: ys => by
    have h1 := intersection_len_comm xs (y :: ys)
    have h2 := intersection_len_comm (x :: xs) ys
    have h3 := intersection_len_comm xs ys
    rw [intersection_len_cons, intersection_len_cons y x ys xs]
    split_ifs <;> omega
termination_by a b => a.length + b.length

theorem intersection_len_self : ∀ a : List Int, intersection_len a a = a.length
  | [] => rfl
  | x :: xs => by
    rw [intersection_len_cons, if_neg (lt_irrefl x), if_neg (lt_irrefl x),
      intersection_len_self xs, List.length_cons]

theorem intersection_len_le : ∀ a b : List Int,
    intersection_len a b ≤ a.length ∧ intersection_len a b ≤ b.length
  | [], b => by simp [intersection_len]
  | a :: as, [] => by simp [intersection_len_nil_right]
  | x :: xs, y :: ys => by
    have h1 := intersection_len_le xs (y :: ys)
    have h2 := intersection_len_le (x :: xs) ys
    have h3 := intersection_len_le xs ys
    rw [intersection_len_cons]
    simp only [List.length_cons] at *
    split_ifs <;> omega
termination_by a b => a.length + b.length

/-- C8 counterexample: on two empty sketches `jaccard_similarity` does
not return 0 — the Rust code evaluates `0.0 / 0.0`, which is `NaN`
(modelled `none`), so the 0/0 case is not defined as 0. -/
theorem C8_counterexample :
    jaccard_similarity ([] : List Int) ([] : List Int) ≠ some 0 := by
  decide

/-- C8 amended: when both input sketches are empty, `jaccard_similarity`
divides 0 by 0 and yields the undefined floating-point value `NaN`
(modelled `none`) rather than 0. -/
theorem C8_empty_empty_nan :
    jaccard_similarity ([] : List Int) ([] : List Int) = none := rfl

/-- C7 counterexample: the result of `jaccard_similarity` does not lie in
[0, 1] for *every* pair of sketches — for the empty/empty pair the result
is `NaN` (modelled `none`), not a rational in [0, 1]. -/
theorem C7_counterexample :
    ¬ ∃ q : ℚ, jaccard_similarity ([] : List Int) ([] : List Int) = some q
      ∧ 0 ≤ q ∧ q ≤ 1 := by
  rintro ⟨q, hq, -⟩
  simp [jaccard_similarity] at hq

/-- C7 amended: `jaccard_similarity` is symmetric, reflexive
(`similarity(a,a) = 1` for non-empty `a`), and its result lies in [0, 1]
for every pair of sketches of which at least one is non-empty (the
empty/empty pair yields `NaN`, modelled `none`). -/
theorem C7_jaccard_properties (a b : List Int) :
    jaccard_similarity a b = jaccard_similarity b a
    ∧ (a ≠ [] → jaccard_similarity a a = some 1)
    ∧ (a ≠ [] ∨ b ≠ [] → ∃ q : ℚ, jaccard_similarity a b = some q
        ∧ 0 ≤ q ∧ q ≤ 1) := by
  refine ⟨?_, ?_, ?_⟩
  · rw [jaccard_similarity, jaccard_similarity, intersection_len_comm,
      Nat.add_comm b.length a.length]
  · intro ha
    have hlen : a.length ≠ 0 := fun h => ha (List.length_eq_zero.mp h)
    rw [jaccard_similarity, intersection_len_self]
    simp only [Nat.add_sub_cancel]
    rw [if_neg hlen, div_self (by exact_mod_cast hlen)]
  · intro hab
    obtain ⟨h1, h2⟩ := intersection_len_le a b
    set i := intersection_len a b with hi
    have hu : a.length + b.length - i ≠ 0 := by
      rcases hab with ha | hb
      · have : a.length ≠ 0 := fun h => ha (List.length_eq_zero.mp h)
        omega
      · have : b.length ≠ 0 := fun h => hb (List.length_eq_zero.mp h)
        omega
    refine ⟨(i : ℚ) / ((a.length + b.length - i : Nat) : ℚ), ?_, ?_, ?_⟩
    · rw [jaccard_similarity, if_neg hu]
    · positivity
    · rw [div_le_one (by positivity)]
      exact_mod_cast by omega

/-- Witness for `C7_jaccard_properties` at `a = [2]`, `b = []`. -/
theorem C7_jaccard_properties_witness :
    jaccard_similarity [(2 : Int)] [] = jaccard_similarity [] [(2 : Int)]
    ∧ jaccard_similarity [(2 : Int)] [(2 : Int)] = some 1
    ∧ ∃ q : ℚ, jaccard_similarity [(2 : Int)] [] = some q ∧ 0 ≤ q ∧ q ≤ 1 :=
  ⟨(C7_jaccard_properties [(2 : Int)] []).1,
    (C7_jaccard_properties [(2 : Int)] [(2 : Int)]).2.1 (by decide),
    (C7_jaccard_properties [(2 : Int)] []).2.2 (Or.inl (by decide))⟩

/-! ### C4: which pairs `compare` evaluates -/

theorem mem_drop_range {n k j : Nat} : j ∈ (List.range n).drop k ↔ k ≤ j ∧ j < n := by
  induction n with
  | zero => simp
  | succ n ih =>
    by_cases hk : k ≤ n
    · rw [List.range_succ, List.drop_append_of_le_length (by simpa using hk)]
      simp only [List.mem_append, ih, List.mem_singleton]
      omega
    · rw [List.range_succ, List.drop_eq_nil_of_le (by simp; omega)]
      simp only [List.not_mem_nil, false_iff]
      omega

theorem mem_comparePairs {na nb i j : Nat} {same : Bool} :
    (i, j) ∈ comparePairs na nb same ↔
      i < na ∧ j < nb ∧ (same = true → i + 1 ≤ j) := by
  simp only [comparePairs, List.mem_flatMap, List.mem_range, List.mem_map,
    Prod.mk.injEq]
  constructor
  · rintro ⟨a, ha, b, hb, rfl, rfl⟩
    rcases mem_drop_range.mp hb with ⟨h1, h2⟩
    refine ⟨ha, h2, fun hsame => ?_⟩
    rw [hsame] at h1
    simpa using h1
  · rintro ⟨h1, h2, h3⟩
    refine ⟨i, h1, j, mem_drop_range.mpr ⟨?_, h2⟩, rfl, rfl⟩
    cases same
    · simp
    · simpa using h3 rfl

theorem sum_range_sub_mul_two :
    ∀ n : Nat, (((List.range n).map fun i => n - (i + 1)).sum) * 2 = n * (n - 1)
  | 0 => rfl
  | n + 1 => by
    rw [List.range_succ_eq_map]
    simp only [List.map_cons, List.map_map, List.sum_cons]
    have hmap : (List.range n).map ((fun i => n + 1 - (i + 1)) ∘ Nat.succ)
        = (List.range n).map fun i => n - (i + 1) := by
      refine List.map_congr_left fun a _ => ?_
      simp only [Function.comp_apply]
      omega
    rw [hmap]
    have ih := sum_range_sub_mul_two n
    set s := ((List.range n).map fun i => n - (i + 1)).sum with hs
    have e1 : n + 1 - (0 + 1) = n := by omega
    rw [e1]
    show (n + s) * 2 = (n + 1) * n
    cases n with
    | zero => simp at hs ⊢; omega
    | succ m =>
      have ih' : s * 2 = (m + 1) * m := by
        rw [ih]
        congr 1
      calc (m + 1 + s) * 2 = 2 * (m + 1) + s * 2 := by ring
        _ = 2 * (m + 1) + (m + 1) * m := by rw [ih']
        _ = (m + 1 + 1) * (m + 1) := by ring

theorem comparePairs_true_length (n : Nat) :
    (comparePairs n n true).length = n * (n - 1) / 2 := by
  have hlen : (comparePairs n n true).length
      = ((List.range n).map fun i => n - (i + 1)).sum := by
    rw [comparePairs, List.length_flatMap]
    congr 1
    refine List.map_congr_left fun a _ => ?_
    simp [List.length_drop]
  have := sum_range_sub_mul_two n
  omega

theorem comparePairs_false_length (n m : Nat) :
    (comparePairs n m false).length = n * m := by
  rw [comparePairs, List.length_flatMap]
  have hmap : (List.range n).map (List.length ∘ fun i =>
      ((List.range m).drop (if (false : Bool) = true then i + 1 else 0)).map
        fun j => (i, j))
      = (List.range n).map fun _ => m := by
    refine List.map_congr_left fun a _ => ?_
    simp
  rw [hmap, List.map_const', List.sum_replicate, smul_eq_mul, List.length_range]

theorem comparePairs_nodup (na nb : Nat) (same : Bool) :
    (comparePairs na nb same).Nodup := by
  rw [comparePairs, List.nodup_flatMap]
  constructor
  · intro i _
    refine List.Nodup.map ?_ ((List.nodup_range nb).sublist (List.drop_sublist _ _))
    intro a b hab
    exact (Prod.mk.injEq _ _ _ _).mp hab |>.2
  · refine List.Pairwise.imp ?_ (List.nodup_range na)
    intro a b hab
    intro p hpa hpb
    rcases List.mem_map.mp hpa with ⟨x, _, rfl⟩
    rcases List.mem_map.mp hpb with ⟨y, _, hy⟩
    exact hab ((Prod.mk.injEq _ _ _ _).mp hy).1.symm

/-- C4: with both arguments the same collection (the code's pointer
identity test, modelled by `same = true`) and `N` digests, `compare`
evaluates exactly the `N*(N-1)/2` strict-upper-triangle pairs — never a
self-pair and never a mirrored pair — and with two distinct collections
(`same = false`) it evaluates the full `N*M` cross product. -/
theorem C4_evaluated_pairs (n m : Nat) :
    ((comparePairs n n true).length = n * (n - 1) / 2)
    ∧ (∀ i j, (i, j) ∈ comparePairs n n true ↔ i < n ∧ j < n ∧ i < j)
    ∧ (∀ i, (i, i) ∉ comparePairs n n true)
    ∧ (∀ i j, (i, j) ∈ comparePairs n n true → (j, i) ∉ comparePairs n n true)
    ∧ (comparePairs n n true).Nodup
    ∧ (∀ i j, (i, j) ∈ comparePairs n m false ↔ i < n ∧ j < m)
    ∧ ((comparePairs n m false).length = n * m) := by
  refine ⟨comparePairs_true_length n, ?_, ?_, ?_, comparePairs_nodup n n true,
    ?_, comparePairs_false_length n m⟩
  · intro i j
    rw [mem_comparePairs]
    constructor
    · rintro ⟨h1, h2, h3⟩
      exact ⟨h1, h2, by have := h3 rfl; omega⟩
    · rintro ⟨h1, h2, h3⟩
      exact ⟨h1, h2, fun _ => by omega⟩
  · intro i hmem
    rcases mem_comparePairs.mp hmem with ⟨-, -, h⟩
    have := h rfl
    omega
  · intro i j hij hji
    rcases mem_comparePairs.mp hij with ⟨-, -, h1⟩
    rcases mem_comparePairs.mp hji with ⟨-, -, h2⟩
    have := h1 rfl
    have := h2 rfl
    omega
  · intro i j
    rw [mem_comparePairs]
    simp

/-! ### C9: thresholding in `compare` -/

theorem pow2_pos (e : Int) : 0 < pow2 e := by
  unfold pow2
  positivity

theorem pow2_add (a b : Int) : pow2 (a + b) = pow2 a * pow2 b :=
  zpow_add₀ (by norm_num) a b

theorem pow2_le_pow2 {m n : Int} (h : m ≤ n) : pow2 m ≤ pow2 n :=
  (zpow_le_zpow_iff_right₀ (by norm_num : (1 : ℚ) < 2)).mpr h

theorem le_of_pow2_le_pow2 {m n : Int} (h : pow2 m ≤ pow2 n) : m ≤ n :=
  (zpow_le_zpow_iff_right₀ (by norm_num : (1 : ℚ) < 2)).mp h

theorem pow2_natCast (n : Nat) : pow2 (n : Int) = (2 : ℚ) ^ n := zpow_natCast 2 n

/-- `qexp` really is the binary exponent: `2 ^ qexp q ≤ q < 2 ^ (qexp q + 1)`. -/
theorem qexp_spec {q : ℚ} (hq : 0 < q) :
    pow2 (qexp q) ≤ q ∧ q < pow2 (qexp q + 1) := by
  have hnum : 0 < q.num := Rat.num_pos.mpr hq
  have hden : (0 : ℚ) < (q.den : ℚ) := by
    have := q.den_nz
    positivity
  have hn0 : q.num.toNat ≠ 0 := by omega
  have hnq : ((q.num.toNat : Nat) : ℚ) = (q.num : ℚ) := by
    have : ((q.num.toNat : Nat) : Int) = q.num := Int.toNat_of_nonneg (le_of_lt hnum)
    exact_mod_cast this
  set gn := Nat.log 2 q.num.toNat with hgn
  set gd := Nat.log 2 q.den with hgd
  have h1 : (2 : ℚ) ^ gn ≤ (q.num : ℚ) := by
    rw [← hnq]
    exact_mod_cast Nat.pow_log_le_self 2 hn0
  have h2 : (q.num : ℚ) < 2 ^ (gn + 1) := by
    rw [← hnq]
    exact_mod_cast Nat.lt_pow_succ_log_self (by norm_num) q.num.toNat
  have h3 : (2 : ℚ) ^ gd ≤ (q.den : ℚ) := by
    exact_mod_cast Nat.pow_log_le_self 2 q.den_nz
  have h4 : (q.den : ℚ) < 2 ^ (gd + 1) := by
    exact_mod_cast Nat.lt_pow_succ_log_self (by norm_num) q.den
  have hq_eq : q = (q.num : ℚ) / (q.den : ℚ) := (Rat.num_div_den q).symm
  have hupper : q < pow2 ((gn : Int) - (gd : Int) + 1) := by
    rw [hq_eq, div_lt_iff hden]
    calc (q.num : ℚ) < 2 ^ (gn + 1) := h2
      _ = pow2 ((gn : Int) + 1) := by rw [← pow2_natCast]; norm_num
      _ = pow2 ((gn : Int) - gd + 1) * pow2 (gd : Int) := by
          rw [← pow2_add]
          congr 1
          omega
      _ ≤ pow2 ((gn : Int) - gd + 1) * (q.den : ℚ) := by
          have hd : pow2 (gd : Int) ≤ (q.den : ℚ) := by rw [pow2_natCast]; exact h3
          exact mul_le_mul_of_nonneg_left hd (le_of_lt (pow2_pos _))
  have hlower : pow2 ((gn : Int) - (gd : Int) - 1) ≤ q := by
    rw [hq_eq, le_div_iff hden]
    calc pow2 ((gn : Int) - gd - 1) * (q.den : ℚ)
        ≤ pow2 ((gn : Int) - gd - 1) * pow2 ((gd : Int) + 1) := by
          have hd : (q.den : ℚ) ≤ pow2 ((gd : Int) + 1) := by
            rw [show ((gd : Int) + 1) = ((gd + 1 : Nat) : Int) from by omega, pow2_natCast]
            exact le_of_lt h4
          exact mul_le_mul_of_nonneg_left hd (le_of_lt (pow2_pos _))
      _ = pow2 (gn : Int) := by
          rw [← pow2_add]
          congr 1
          omega
      _ ≤ (q.num : ℚ) := by rw [pow2_natCast]; exact h1
  rw [qexp]
  by_cases hcase : pow2 ((gn : Int) - (gd : Int)) ≤ q
  · rw [if_pos hcase]
    exact ⟨hcase, hupper⟩
  · rw [if_neg hcase]
    constructor
    · rw [show (gn : Int) - gd - 1 = ((gn : Int) - gd) - 1 from rfl] at hlower
      exact hlower
    · rw [show (gn : Int) - gd - 1 + 1 = (gn : Int) - gd from by omega]
      exact lt_of_not_le hcase

theorem rndNE_nonneg {m : ℚ} (h : 0 ≤ m) : 0 ≤ rndNE m := by
  have hfl : 0 ≤ ⌊m⌋ := Int.floor_nonneg.mpr h
  unfold rndNE
  split_ifs <;> omega

theorem rndNE_le_of_le {m : ℚ} {c : Int} (h : m ≤ (c : ℚ)) : rndNE m ≤ c := by
  have hfl : ⌊m⌋ ≤ c := by
    have := Int.floor_le_floor h
    rwa [Int.floor_intCast] at this
  have hkey : ¬ (m - ⌊m⌋ < 1 / 2) → ⌊m⌋ + 1 ≤ c := by
    intro hge
    push_neg at hge
    by_contra hlt
    have hc : ⌊m⌋ = c := by omega
    rw [hc] at hge
    have hle : m - (c : ℚ) ≤ 0 := by linarith
    linarith
  unfold rndNE
  split_ifs with h1 h2 h3
  · exact hfl
  · exact hkey h1
  · exact hfl
  · exact hkey h1

theorem flRound_nonneg (q : ℚ) : 0 ≤ flRound q := by
  unfold flRound
  split_ifs with h
  · exact le_refl 0
  · push_neg at h
    have hm : 0 ≤ q / pow2 (qexp q - 52) := by
      have := pow2_pos (qexp q - 52)
      positivity
    exact mul_nonneg (by exact_mod_cast rndNE_nonneg hm) (le_of_lt (pow2_pos _))

/-- The core bound: rounding cannot escape past any bound of the form
`c · 2^(e-52)` with integral `c` — in particular past any representable
value at the same exponent. -/
theorem flRound_le_int_mul {q : ℚ} (hq : 0 < q) (c : Int)
    (h : q ≤ (c : ℚ) * pow2 (qexp q - 52)) :
    flRound q ≤ (c : ℚ) * pow2 (qexp q - 52) := by
  rw [flRound, if_neg (not_le.mpr hq)]
  have hm : q / pow2 (qexp q - 52) ≤ (c : ℚ) := by
    rw [div_le_iff (pow2_pos _)]
    exact h
  have hr := rndNE_le_of_le hm
  exact mul_le_mul_of_nonneg_right (by exact_mod_cast hr) (le_of_lt (pow2_pos _))

theorem flRound_le_pow_succ {q : ℚ} (hq : 0 < q) :
    flRound q ≤ pow2 (qexp q + 1) := by
  have h253 : ((2 ^ 53 : Int) : ℚ) * pow2 (qexp q - 52) = pow2 (qexp q + 1) := by
    rw [show ((2 ^ 53 : Int) : ℚ) = pow2 ((53 : Nat) : Int) from by
        rw [pow2_natCast]; norm_num,
      ← pow2_add]
    congr 1
    omega
  rw [← h253]
  refine flRound_le_int_mul hq _ ?_
  rw [h253]
  exact le_of_lt (qexp_spec hq).2

theorem flRound_le_one {q : ℚ} (h : q ≤ 1) : flRound q ≤ 1 := by
  by_cases h0 : q ≤ 0
  · rw [flRound, if_pos h0]
    norm_num
  · push_neg at h0
    have hspec := qexp_spec h0
    have he : qexp q ≤ 0 := by
      refine le_of_pow2_le_pow2 (le_trans hspec.1 ?_)
      rw [show pow2 0 = 1 from by norm_num [pow2]]
      exact h
    rcases lt_or_eq_of_le he with he' | he'
    · calc flRound q ≤ pow2 (qexp q + 1) := flRound_le_pow_succ h0
        _ ≤ pow2 0 := pow2_le_pow2 (by omega)
        _ = 1 := by norm_num [pow2]
    · have h52 : ((2 ^ 52 : Int) : ℚ) * pow2 (qexp q - 52) = 1 := by
        rw [show ((2 ^ 52 : Int) : ℚ) = pow2 ((52 : Nat) : Int) from by
            rw [pow2_natCast]; norm_num,
          ← pow2_add, he']
        norm_num [pow2]
      calc flRound q ≤ ((2 ^ 52 : Int) : ℚ) * pow2 (qexp q - 52) :=
            flRound_le_int_mul h0 _ (by rw [h52]; exact h)
        _ = 1 := h52

theorem flRound_le_100 {z : ℚ} (h : z ≤ 100) : flRound z ≤ 100 := by
  by_cases h0 : z ≤ 0
  · rw [flRound, if_pos h0]
    norm_num
  · push_neg at h0
    have hspec := qexp_spec h0
    have he : qexp z ≤ 6 := by
      have h7 : pow2 (qexp z) < pow2 7 := by
        refine lt_of_le_of_lt (le_trans hspec.1 h) ?_
        rw [show pow2 7 = ((2 : ℚ) ^ (7 : Nat)) from pow2_natCast 7]
        norm_num
      have := (zpow_lt_zpow_iff_right₀ (by norm_num : (1 : ℚ) < 2)).mp h7
      omega
    rcases lt_or_eq_of_le he with he' | he'
    · calc flRound z ≤ pow2 (qexp z + 1) := flRound_le_pow_succ h0
        _ ≤ pow2 6 := pow2_le_pow2 (by omega)
        _ ≤ 100 := by
          rw [show pow2 6 = ((2 : ℚ) ^ (6 : Nat)) from pow2_natCast 6]
          norm_num
    · have hc : ((100 * 2 ^ 46 : Int) : ℚ) * pow2 (qexp z - 52) = 100 := by
        rw [show ((100 * 2 ^ 46 : Int) : ℚ) = 100 * pow2 ((46 : Nat) : Int) from by
            rw [pow2_natCast]; push_cast; ring,
          mul_assoc, ← pow2_add, he']
        norm_num [pow2]
      calc flRound z ≤ ((100 * 2 ^ 46 : Int) : ℚ) * pow2 (qexp z - 52) :=
            flRound_le_int_mul h0 _ (by rw [hc]; exact h)
        _ = 100 := hc

theorem simInt_le_100 (a b : List Int) : simInt a b ≤ 100 := by
  simp only [simInt]
  obtain ⟨h1, h2⟩ := intersection_len_le a b
  by_cases hu : a.length + b.length - intersection_len a b = 0
  · simp [hu]
  · rw [if_neg hu]
    set i := intersection_len a b
    set u := a.length + b.length - i with hu_def
    have hiu : i ≤ u := by omega
    have hu0 : 0 < u := by omega
    have hq1 : (i : ℚ) / (u : ℚ) ≤ 1 := by
      rw [div_le_one (by positivity)]
      exact_mod_cast hiu
    have hx := flRound_le_one hq1
    have hy : flRound (100 * flRound ((i : ℚ) / (u : ℚ))) ≤ 100 :=
      flRound_le_100 (by linarith)
    have hfloor : ⌊flRound (100 * flRound ((i : ℚ) / (u : ℚ))) + 1 / 2⌋ ≤ 100 := by
      have hlt : ⌊flRound (100 * flRound ((i : ℚ) / (u : ℚ))) + 1 / 2⌋ < 101 :=
        Int.floor_lt.mpr (by push_cast; linarith)
      omega
    omega

theorem filterMap_sublist_of_imp {α β : Type} (l : List α) (f g : α → Option β)
    (h : ∀ x y, f x = some y → g x = some y) :
    List.Sublist (l.filterMap f) (l.filterMap g) := by
  induction l with
  | nil => simp
  | cons a l ih =>
    rw [List.filterMap_cons, List.filterMap_cons]
    cases hf : f a with
    | none =>
      cases g a with
      | none => exact ih
      | some b => exact List.Sublist.cons b ih
    | some b =>
      rw [h a b hf]
      exact List.Sublist.cons₂ b ih

/-- C9: a result record is emitted for an evaluated pair iff its rounded
integer similarity (an integer in [0, 100]) reaches the threshold, and
raising the threshold from `t1` to `t2 ≥ t1` can only shrink the result
list (it stays a sublist). -/
theorem C9_thresholding (da db : List (List Int × String)) (same : Bool)
    (t1 t2 : Nat) (h12 : t1 ≤ t2) :
    (∀ r ∈ compareResults da db same t1, t1 ≤ r.2.2 ∧ r.2.2 ≤ 100)
    ∧ (∀ p ∈ comparePairs da.length db.length same,
        t1 ≤ simInt (da.getD p.1 ([], "")).1 (db.getD p.2 ([], "")).1 →
        ((da.getD p.1 ([], "")).2, (db.getD p.2 ([], "")).2,
          simInt (da.getD p.1 ([], "")).1 (db.getD p.2 ([], "")).1)
          ∈ compareResults da db same t1)
    ∧ List.Sublist (compareResults da db same t2) (compareResults da db same t1) := by
  refine ⟨?_, ?_, ?_⟩
  · intro r hr
    rcases List.mem_filterMap.mp hr with ⟨p, -, hsome⟩
    by_cases ht : t1 ≤ simInt (da.getD p.1 ([], "")).1 (db.getD p.2 ([], "")).1
    · rw [if_pos ht] at hsome
      cases hsome
      exact ⟨ht, simInt_le_100 _ _⟩
    · rw [if_neg ht] at hsome
      cases hsome
  · intro p hp ht
    exact List.mem_filterMap.mpr ⟨p, hp, by rw [if_pos ht]⟩
  · exact filterMap_sublist_of_imp _ _ _ fun p r hr => by
      by_cases ht : t2 ≤ simInt (da.getD p.1 ([], "")).1 (db.getD p.2 ([], "")).1
      · rw [if_pos ht] at hr
        rw [if_pos (le_trans h12 ht)]
        exact hr
      · rw [if_neg ht] at hr
        cases hr

/-- Witness for `C9_thresholding` at a concrete self-comparison with
thresholds 1 ≤ 50. -/
theorem C9_thresholding_witness :
    (1 : Nat) ≤ 50
    ∧ List.Sublist
        (compareResults [([0, 1, 2, 3], "a"), ([9], "c")]
          [([0, 1, 2, 3], "a"), ([9], "c")] true 50)
        (compareResults [([0, 1, 2, 3], "a"), ([9], "c")]
          [([0, 1, 2, 3], "a"), ([9], "c")] true 1) :=
  ⟨by decide,
    (C9_thresholding [([0, 1, 2, 3], "a"), ([9], "c")]
      [([0, 1, 2, 3], "a"), ([9], "c")] true 1 50 (by decide)).2.2⟩

/-! ### C5 and C6: serialization -/

theorem decodeChar_encodeChar : ∀ i : Fin 64, decodeChar (encodeChar i.val) = some i.val := by
  decide

theorem encodeChar_ne_pad : ∀ i : Fin 64, encodeChar i.val ≠ Char.ofNat 61 := by
  decide

theorem decodeChar_encodeChar_of_lt {i : Nat} (h : i < 64) :
    decodeChar (encodeChar i) = some i :=
  decodeChar_encodeChar ⟨i, h⟩

theorem encodeChar_ne_pad_of_lt {i : Nat} (h : i < 64) :
    encodeChar i ≠ Char.ofNat 61 :=
  encodeChar_ne_pad ⟨i, h⟩

/-- Decoding inverts encoding on any list of genuine bytes. -/
theorem base64_roundtrip : ∀ bs : List Nat, (∀ b ∈ bs, b < 256) →
    base64Decode (base64Encode bs) = some bs
  | [], _ => rfl
  | [b0], h => by
    have hb0 : b0 < 256 := h b0 (by simp)
    rw [base64Encode, base64Decode,
      decodeChar_encodeChar_of_lt (by omega : b0 / 4 < 64),
      decodeChar_encodeChar_of_lt (by omega : b0 % 4 * 16 < 64)]
    simp only [Option.some_bind, and_self, if_true]
    have hv : b0 / 4 * 4 + b0 % 4 * 16 / 16 = b0 := by omega
    rw [hv]
  | [b0, b1], h => by
    have hb0 : b0 < 256 := h b0 (by simp)
    have hb1 : b1 < 256 := h b1 (by simp)
    rw [base64Encode, base64Decode,
      decodeChar_encodeChar_of_lt (by omega : b0 / 4 < 64),
      decodeChar_encodeChar_of_lt (by omega : b0 % 4 * 16 + b1 / 16 < 64),
      decodeChar_encodeChar_of_lt (by omega : b1 % 16 * 4 < 64)]
    simp only [Option.some_bind]
    rw [if_neg (encodeChar_ne_pad_of_lt (by omega : b1 % 16 * 4 < 64))]
    simp only [Option.some_bind, if_true]
    have hv0 : b0 / 4 * 4 + (b0 % 4 * 16 + b1 / 16) / 16 = b0 := by omega
    have hv1 : (b0 % 4 * 16 + b1 / 16) % 16 * 16 + b1 % 16 * 4 / 4 = b1 := by omega
    rw [hv0, hv1]
  | b0 :: b1 :: b2 :: rest, h => by
    have hb0 : b0 < 256 := h b0 (by simp)
    have hb1 : b1 < 256 := h b1 (by simp)
    have hb2 : b2 < 256 := h b2 (by simp)
    have hrest := base64_roundtrip rest fun b hb => h b (by simp [hb])
    rw [base64Encode, base64Decode,
      decodeChar_encodeChar_of_lt (by omega : b0 / 4 < 64),
      decodeChar_encodeChar_of_lt (by omega : b0 % 4 * 16 + b1 / 16 < 64),
      decodeChar_encodeChar_of_lt (by omega : b1 % 16 * 4 + b2 / 64 < 64),
      decodeChar_encodeChar_of_lt (by omega : b2 % 64 < 64)]
    simp only [Option.some_bind]
    rw [if_neg (encodeChar_ne_pad_of_lt (by omega : b1 % 16 * 4 + b2 / 64 < 64)),
      if_neg (encodeChar_ne_pad_of_lt (by omega : b2 % 64 < 64)), hrest]
    show some (_ :: _ :: _ :: rest) = _
    have hv0 : b0 / 4 * 4 + (b0 % 4 * 16 + b1 / 16) / 16 = b0 := by omega
    have hv1 : (b0 % 4 * 16 + b1 / 16) % 16 * 16 + (b1 % 16 * 4 + b2 / 64) / 4 = b1 := by
      omega
    have hv2 : (b1 % 16 * 4 + b2 / 64) % 4 * 64 + b2 % 64 = b2 := by omega
    rw [hv0, hv1, hv2]

theorem toI64_toU64 {v : Int} (h1 : -(2 ^ 63) ≤ v) (h2 : v < 2 ^ 63) :
    toI64 (toU64 v) = v := by
  unfold toI64 toU64
  split_ifs <;> omega

theorem i64ToBytes_length (v : Int) : (i64ToBytes v).length = 8 := rfl

theorem i64ToBytes_lt (v : Int) : ∀ b ∈ i64ToBytes v, b < 256 := by
  intro b hb
  simp only [i64ToBytes, List.mem_cons, List.not_mem_nil, or_false] at hb
  rcases hb with rfl | rfl | rfl | rfl | rfl | rfl | rfl | rfl <;> omega

theorem bytesToI64_i64ToBytes {v : Int} (h1 : -(2 ^ 63) ≤ v) (h2 : v < 2 ^ 63) :
    bytesToI64 (i64ToBytes v) = v := by
  rw [i64ToBytes, bytesToI64]
  have hw : toU64 v < 2 ^ 64 := by
    unfold toU64
    omega
  have hfold : (List.foldr (fun b acc => b + 256 * acc) 0
      [toU64 v % 256, toU64 v / 256 % 256, toU64 v / 256 ^ 2 % 256,
        toU64 v / 256 ^ 3 % 256, toU64 v / 256 ^ 4 % 256, toU64 v / 256 ^ 5 % 256,
        toU64 v / 256 ^ 6 % 256, toU64 v / 256 ^ 7 % 256]) = toU64 v := by
    simp only [List.foldr_cons, List.foldr_nil]
    omega
  rw [hfold]
  exact toI64_toU64 h1 h2

theorem parseChunks_nil : parseChunks [] = [] := rfl

theorem parseChunks_cons {blk : List Nat} (rest : List Nat) (hb : blk.length = 8) :
    parseChunks (blk ++ rest) = bytesToI64 blk :: parseChunks rest := by
  unfold parseChunks
  have hlen : (blk ++ rest).length = 8 + rest.length := by simp [hb]
  rw [hlen]
  have hdiv : (8 + rest.length) / 8 = rest.length / 8 + 1 := by omega
  rw [hdiv, List.range_succ_eq_map, List.map_cons, List.map_map]
  congr 1
  · rw [Nat.zero_mul, List.drop_zero, ← hb, List.take_left]
  · refine List.map_congr_left fun a _ => ?_
    simp only [Function.comp_apply]
    have hshift : Nat.succ a * 8 = blk.length + a * 8 := by rw [hb]; omega
    rw [hshift, List.drop_append]

/-- `parseChunks` undoes per-entry serialization for in-range entries. -/
theorem parseChunks_flatMap : ∀ entries : List Int,
    (∀ v ∈ entries, -(2 ^ 63) ≤ v ∧ v < 2 ^ 63) →
    parseChunks (entries.flatMap i64ToBytes) = entries
  | [], _ => rfl
  | v :: rest, h => by
    rw [List.flatMap_cons, parseChunks_cons _ (i64ToBytes_length v),
      bytesToI64_i64ToBytes (h v (by simp)).1 (h v (by simp)).2,
      parseChunks_flatMap rest fun w hw => h w (by simp [hw])]

/-- C5: serialization round-trips — for every `LZDict` satisfying the §3
invariants (strictly ascending entries, hence distinct, at most 1024 of
them, each a genuine `i64` value), `from_base64_string (to_string d)`
succeeds and returns exactly the entries of `d`. -/
theorem C5_roundtrip (entries : List Int) (hsorted : entries.Sorted (· < ·))
    (hlen : entries.length ≤ 1024)
    (hrange : ∀ v ∈ entries, -(2 ^ 63) ≤ v ∧ v < 2 ^ 63) :
    from_base64_string (lzdict_to_string entries) = some entries := by
  rw [from_base64_string, lzdict_to_string]
  have hdata : (String.mk (base64Encode (entries.flatMap i64ToBytes))).data
      = base64Encode (entries.flatMap i64ToBytes) := rfl
  have hbytes : ∀ b ∈ entries.flatMap i64ToBytes, b < 256 := by
    intro b hb
    rcases List.mem_flatMap.mp hb with ⟨v, -, hbv⟩
    exact i64ToBytes_lt v b hbv
  rw [hdata, base64_roundtrip _ hbytes]
  show some (parseChunks (entries.flatMap i64ToBytes)) = some entries
  rw [parseChunks_flatMap entries hrange]

/-- Witness for `C5_roundtrip` on the sketch `[-5, 0, 7]`. -/
theorem C5_roundtrip_witness :
    ([-5, 0, 7] : List Int).Sorted (· < ·)
    ∧ ([-5, 0, 7] : List Int).length ≤ 1024
    ∧ (∀ v ∈ ([-5, 0, 7] : List Int), -(2 ^ 63) ≤ v ∧ v < 2 ^ 63)
    ∧ from_base64_string (lzdict_to_string [-5, 0, 7]) = some [-5, 0, 7] :=
  ⟨by decide, by decide, by decide,
    C5_roundtrip [-5, 0, 7] (by decide) (by decide) (by decide)⟩

/-- C6 counterexample: `"AAAAAAAAAAAA"` decodes to 9 bytes — not a
multiple of 8 — yet `from_base64_string` succeeds (returning one entry
and silently discarding the trailing byte) instead of failing with a
decode error. -/
theorem C6_counterexample :
    base64Decode ("AAAAAAAAAAAA".data) = some (List.replicate 9 0)
    ∧ (List.replicate 9 (0 : Nat)).length % 8 ≠ 0
    ∧ from_base64_string "AAAAAAAAAAAA" = some [0] := by
  refine ⟨by decide, by decide, ?_⟩
  decide

/-- C6 amended: when the base64 payload decodes successfully,
`from_base64_string` always succeeds, parsing `⌊len/8⌋` entries and
silently ignoring any trailing `len mod 8` bytes; a non-multiple-of-8
length does not produce a decode error. -/
theorem C6_trailing_bytes_ignored (s : String) (bytes : List Nat)
    (h : base64Decode s.data = some bytes) :
    from_base64_string s = some (parseChunks bytes)
    ∧ (parseChunks bytes).length = bytes.length / 8 := by
  constructor
  · rw [from_base64_string, h]
    rfl
  · rw [parseChunks, List.length_map, List.length_range]

/-- Witness for `C6_trailing_bytes_ignored` at the 9-byte payload. -/
theorem C6_trailing_bytes_ignored_witness :
    base64Decode ("AAAAAAAAAAAA".data) = some (List.replicate 9 0)
    ∧ from_base64_string "AAAAAAAAAAAA" = some (parseChunks (List.replicate 9 0))
    ∧ (parseChunks (List.replicate 9 0)).length = (List.replicate 9 (0 : Nat)).length / 8 :=
  ⟨by decide,
    (C6_trailing_bytes_ignored "AAAAAAAAAAAA" (List.replicate 9 0) (by decide)).1,
    (C6_trailing_bytes_ignored "AAAAAAAAAAAA" (List.replicate 9 0) (by decide)).2⟩

/-! ### C3: the LZ78 parser and the zero byte -/

/-- C3: the phrase table is *not* the canonical LZ78 factorization for
every input. On the one-byte stream `[0]` the parser's search matches the
synthetic root entry `(0, 0)` itself, so no phrase is appended and the
resulting sketch is empty — whereas canonical LZ78 parsing (root not
matchable) appends the phrase `(0, 0)`. -/
theorem C3_zero_byte_root_match {σ : Type} (bh : BuildHasher σ) :
    lz78Dict [0] = [(0, 0)]
    ∧ lz78Canonical [0] = [(0, 0), (0, 0)]
    ∧ from_bytes_stream_lz78 [0] bh = [] :=
  ⟨rfl, rfl, rfl⟩

/-! ### C1: `from_bytes_stream` versus the §4.1 streaming algorithm

The two agree while the number of distinct hashes stays within 1000
(`C1_agree_le_1000`), and differ on `ceStream`/`ceBH`, which produce 1001
distinct hashes: the code keeps 1000 of them, the spec's bounded sketch
(K = 1024) keeps all 1001 (`C1_counterexample`). -/

theorem ceV_le_succ (p : Nat) : ceV p ≤ ceV (p + 1) := by
  show ceV p ≤ ceV p * 256 + 1
  omega

theorem ceV_mono : ∀ {j m : Nat}, j ≤ m → ceV j ≤ ceV m := by
  intro j m h
  induction m with
  | zero =>
    cases Nat.le_zero.mp h
    exact le_refl _
  | succ m ih =>
    rcases Nat.lt_succ_iff_lt_or_eq.mp (Nat.lt_succ_of_le h) with h' | rfl
    · exact le_trans (ih (Nat.lt_succ_iff.mp h')) (ceV_le_succ m)
    · exact le_refl _

theorem ceV_three_bound : ceV 3 ≤ 65793 := by decide

/-- Cross-phase monotonicity: every phase-`p` hash is below every
phase-`q` hash for `p < q`. -/
theorem ceW_lt_ceW {p q b c : Nat} (hpq : p < q) (hb : b < 256) :
    ceW p b < ceW q c := by
  unfold ceW
  rw [Nat.cast_lt]
  have h1 : ceV (p + 1) ≤ ceV q := ceV_mono hpq
  have h2 : ceV (p + 1) = ceV p * 256 + 1 := rfl
  omega

theorem ceW_lt_ceW_same {p b c : Nat} (hbc : b < c) : ceW p b < ceW p c := by
  unfold ceW
  rw [Nat.cast_lt]
  omega

theorem ceW_bound {p b : Nat} (hp : p ≤ 3) (hb : b < 256) :
    ceV p * 256 + b + 1 < 2 ^ 63 := by
  have := ceV_mono hp
  have := ceV_three_bound
  omega

theorem mem_ceBand {p n : Nat} {x : Int} :
    x ∈ ceBand p n ↔ ∃ b, b < n ∧ x = ceW p b := by
  unfold ceBand
  simp only [List.mem_map, List.mem_reverse, List.mem_range]
  constructor
  · rintro ⟨b, hb, rfl⟩
    exact ⟨b, hb, rfl⟩
  · rintro ⟨b, hb, rfl⟩
    exact ⟨b, hb, rfl⟩

theorem ceBand_length (p n : Nat) : (ceBand p n).length = n := by
  unfold ceBand
  rw [List.length_map, List.length_reverse, List.length_range]

theorem code_step_zero (L : List Int) (s : Nat) (hbound : s * 256 + 1 < 2 ^ 63)
    (hmem : ((s * 256 + 1 : Nat) : Int) ∈ L) :
    streamStep ceBH (L, s) 0 = (L, s * 256 + 1) := by
  simp only [streamStep, ceBH, Nat.add_zero]
  rw [toI64_eq_of_lt hbound, if_pos hmem]

theorem code_step_new (L : List Int) (s b : Nat) (hbound : s * 256 + b + 1 < 2 ^ 63)
    (hmem : ((s * 256 + b + 1 : Nat) : Int) ∉ L) :
    streamStep ceBH (L, s) b = (((s * 256 + b + 1 : Nat) : Int) :: L, 0) := by
  simp only [streamStep, ceBH]
  rw [toI64_eq_of_lt hbound, if_neg hmem]

theorem code_zeros : ∀ (p k : Nat) (L : List Int), k + p ≤ 3 →
    (∀ j, k < j → j ≤ k + p → ((ceV j : Nat) : Int) ∈ L) →
    (List.replicate p 0).foldl (streamStep ceBH) (L, ceV k) = (L, ceV (k + p))
  | 0, k, L, _, _ => by simp
  | p + 1, k, L, hk, hmem => by
    rw [List.replicate_succ, List.foldl_cons]
    have hsucc : ceV (k + 1) = ceV k * 256 + 1 := rfl
    have hb : ceV k * 256 + 1 < 2 ^ 63 := by
      have h1 : ceV (k + 1) ≤ ceV 3 := ceV_mono (by omega)
      have h3 := ceV_three_bound
      omega
    rw [code_step_zero L (ceV k) hb (by rw [← hsucc]; exact hmem (k + 1) (by omega) (by omega)),
      ← hsucc,
      code_zeros p (k + 1) L (by omega) (fun j hj1 hj2 => hmem j (by omega) (by omega))]
    have harg : k + 1 + p = k + (p + 1) := by omega
    rw [harg]

theorem code_group (p b : Nat) (L : List Int) (hp : p ≤ 3) (hb : b < 256)
    (hmem : ∀ j, 1 ≤ j → j ≤ p → ((ceV j : Nat) : Int) ∈ L)
    (hnew : ceW p b ∉ L) :
    (ceGroup p b).foldl (streamStep ceBH) (L, 0) = (ceW p b :: L, 0) := by
  unfold ceGroup
  rw [List.foldl_append]
  have hz : (List.replicate p 0).foldl (streamStep ceBH) (L, 0) = (L, ceV p) := by
    have h := code_zeros p 0 L (by omega) (fun j h1 h2 => hmem j h1 (by omega))
    rw [show ceV 0 = 0 from rfl, show (0 : Nat) + p = p from by omega] at h
    exact h
  rw [hz]
  show streamStep ceBH (L, ceV p) b = _
  rw [code_step_new L (ceV p) b (ceW_bound hp hb) hnew]
  rfl

theorem ceBand_succ (p n : Nat) : ceBand p (n + 1) = ceW p n :: ceBand p n := by
  unfold ceBand
  rw [List.range_succ, List.reverse_append]
  simp

theorem code_phase : ∀ (p n : Nat) (L : List Int), p ≤ 3 → n ≤ 256 →
    (∀ j, 1 ≤ j → j ≤ p → ((ceV j : Nat) : Int) ∈ L) →
    (∀ x ∈ L, x < ceW p 0) →
    (cePhase p n).foldl (streamStep ceBH) (L, 0) = (ceBand p n ++ L, 0)
  | p, 0, L, _, _, _, _ => by simp [cePhase, ceBand]
  | p, n + 1, L, hp, hn, hmem, hbound => by
    have hstep : cePhase p (n + 1) = cePhase p n ++ ceGroup p n := by
      unfold cePhase
      rw [List.range_succ, List.flatMap_append]
      simp
    rw [hstep, List.foldl_append,
      code_phase p n L hp (by omega) hmem hbound]
    have hmem' : ∀ j, 1 ≤ j → j ≤ p → ((ceV j : Nat) : Int) ∈ ceBand p n ++ L :=
      fun j h1 h2 => List.mem_append_right _ (hmem j h1 h2)
    have hW0n : ceW p 0 ≤ ceW p n := by
      unfold ceW
      rw [Nat.cast_le]
      omega
    have hnew : ceW p n ∉ ceBand p n ++ L := by
      intro hx
      rcases List.mem_append.mp hx with hx | hx
      · rcases mem_ceBand.mp hx with ⟨c, hc, heq⟩
        have hlt := @ceW_lt_ceW_same p c n hc
        rw [← heq] at hlt
        exact lt_irrefl _ hlt
      · have hlt := hbound _ hx
        omega
    rw [code_group p n _ hp (by omega) hmem' hnew, ceBand_succ]
    rfl

theorem ceV_cast_eq_ceW (m : Nat) : ((ceV (m + 1) : Nat) : Int) = ceW m 0 := rfl

/-- Unfolding equations, stated at variable arguments so that later
rewrites never put the kernel in front of a mega-fold defeq check. -/
theorem streamSeen_def {σ : Type} (seq : List Nat) (bh : BuildHasher σ) :
    streamSeen seq bh = (seq.foldl (streamStep bh) ([], bh.build)).1 := rfl

theorem from_bytes_stream_def {σ : Type} (seq : List Nat) (bh : BuildHasher σ) :
    from_bytes_stream seq bh
      = (List.insertionSort (· ≤ ·) (streamSeen seq bh)).take 1000 := rfl

theorem build_streaming_def {σ : Type} (seq : List Nat) (bh : BuildHasher σ) :
    build_streaming seq bh = (seq.foldl (specStreamStep bh) ([], bh.build)).1 := rfl

theorem ceStream_def :
    ceStream = cePhase 0 256 ++ (cePhase 1 256 ++ (cePhase 2 256 ++ cePhase 3 233)) := rfl

/-- The set of hashes collected by `from_bytes_stream` on the
counterexample stream: the four phase bands, 1001 values in total. -/
theorem streamSeen_ce :
    streamSeen ceStream ceBH
      = ceBand 3 233 ++ (ceBand 2 256 ++ (ceBand 1 256 ++ ceBand 0 256)) := by
  rw [streamSeen_def, ceStream_def, List.foldl_append, List.foldl_append,
    List.foldl_append, show ceBH.build = 0 from rfl]
  have h0 : (cePhase 0 256).foldl (streamStep ceBH) ([], 0)
      = (ceBand 0 256 ++ [], 0) :=
    code_phase 0 256 [] (by omega) (by omega)
      (fun j h1 h2 => absurd (h1.trans h2) (by norm_num))
      (fun x hx => absurd hx (List.not_mem_nil x))
  rw [h0, List.append_nil]
  have h1 : (cePhase 1 256).foldl (streamStep ceBH) (ceBand 0 256, 0)
      = (ceBand 1 256 ++ ceBand 0 256, 0) := by
    refine code_phase 1 256 _ (by omega) (by omega) ?_ ?_
    · intro j hj1 hj2
      have hj : j = 1 := by omega
      subst hj
      rw [ceV_cast_eq_ceW 0]
      exact mem_ceBand.mpr ⟨0, by norm_num, rfl⟩
    · intro x hx
      rcases mem_ceBand.mp hx with ⟨b, hb, rfl⟩
      exact ceW_lt_ceW (by norm_num) hb
  rw [h1]
  have h2 : (cePhase 2 256).foldl (streamStep ceBH) (ceBand 1 256 ++ ceBand 0 256, 0)
      = (ceBand 2 256 ++ (ceBand 1 256 ++ ceBand 0 256), 0) := by
    refine code_phase 2 256 _ (by omega) (by omega) ?_ ?_
    · intro j hj1 hj2
      interval_cases j
      · rw [ceV_cast_eq_ceW 0]
        exact List.mem_append_right _ (mem_ceBand.mpr ⟨0, by norm_num, rfl⟩)
      · rw [ceV_cast_eq_ceW 1]
        exact List.mem_append_left _ (mem_ceBand.mpr ⟨0, by norm_num, rfl⟩)
    · intro x hx
      rcases List.mem_append.mp hx with hx | hx <;>
        rcases mem_ceBand.mp hx with ⟨b, hb, rfl⟩
      · exact ceW_lt_ceW (by norm_num) hb
      · exact ceW_lt_ceW (by norm_num) hb
  rw [h2]
  have h3 : (cePhase 3 233).foldl (streamStep ceBH)
      (ceBand 2 256 ++ (ceBand 1 256 ++ ceBand 0 256), 0)
      = (ceBand 3 233 ++ (ceBand 2 256 ++ (ceBand 1 256 ++ ceBand 0 256)), 0) := by
    refine code_phase 3 233 _ (by omega) (by omega) ?_ ?_
    · intro j hj1 hj2
      interval_cases j
      · rw [ceV_cast_eq_ceW 0]
        exact List.mem_append_right _
          (List.mem_append_right _ (mem_ceBand.mpr ⟨0, by norm_num, rfl⟩))
      · rw [ceV_cast_eq_ceW 1]
        exact List.mem_append_right _
          (List.mem_append_left _ (mem_ceBand.mpr ⟨0, by norm_num, rfl⟩))
      · rw [ceV_cast_eq_ceW 2]
        exact List.mem_append_left _ (mem_ceBand.mpr ⟨0, by norm_num, rfl⟩)
    · intro x hx
      rcases List.mem_append.mp hx with hx | hx
      · rcases mem_ceBand.mp hx with ⟨b, hb, rfl⟩
        exact ceW_lt_ceW (by norm_num) hb
      · rcases List.mem_append.mp hx with hx | hx <;>
          rcases mem_ceBand.mp hx with ⟨b, hb, rfl⟩
        · exact ceW_lt_ceW (by norm_num) hb
        · exact ceW_lt_ceW (by norm_num) hb
  rw [h3]

theorem streamSeen_ce_length : (streamSeen ceStream ceBH).length = 1001 := by
  rw [streamSeen_ce]
  simp only [List.length_append, ceBand_length]

/-! Spec side of the counterexample. -/

theorem spec_step_mem (L : List Int) (s b : Nat) (hbound : s * 256 + b + 1 < 2 ^ 63)
    (hmem : ((s * 256 + b + 1 : Nat) : Int) ∈ L) :
    specStreamStep ceBH (L, s) b = (L, s * 256 + b + 1) := by
  simp only [specStreamStep, ceBH]
  rw [toI64_eq_of_lt hbound, if_pos hmem]

theorem spec_step_new (L : List Int) (s b : Nat) (hbound : s * 256 + b + 1 < 2 ^ 63)
    (hmem : ((s * 256 + b + 1 : Nat) : Int) ∉ L) (hlen : L.length < 1024) :
    specStreamStep ceBH (L, s) b
      = (List.orderedInsert (· ≤ ·) ((s * 256 + b + 1 : Nat) : Int) L, 0) := by
  simp only [specStreamStep, ceBH]
  rw [toI64_eq_of_lt hbound, if_neg hmem, if_pos hlen]

theorem spec_zeros : ∀ (p k : Nat) (L : List Int), k + p ≤ 3 →
    (∀ j, k < j → j ≤ k + p → ((ceV j : Nat) : Int) ∈ L) →
    (List.replicate p 0).foldl (specStreamStep ceBH) (L, ceV k) = (L, ceV (k + p))
  | 0, k, L, _, _ => by simp
  | p + 1, k, L, hk, hmem => by
    rw [List.replicate_succ, List.foldl_cons]
    have hsucc : ceV (k + 1) = ceV k * 256 + 0 + 1 := rfl
    have hb : ceV k * 256 + 0 + 1 < 2 ^ 63 := by
      have h1 : ceV (k + 1) ≤ ceV 3 := ceV_mono (by omega)
      have h3 := ceV_three_bound
      omega
    rw [spec_step_mem L (ceV k) 0 hb
        (by rw [← hsucc]; exact hmem (k + 1) (by omega) (by omega)),
      ← hsucc,
      spec_zeros p (k + 1) L (by omega) (fun j hj1 hj2 => hmem j (by omega) (by omega))]
    have harg : k + 1 + p = k + (p + 1) := by omega
    rw [harg]

theorem spec_group (p b : Nat) (T : List Int) (hp : p ≤ 3) (hb : b < 256)
    (hmem : ∀ j, 1 ≤ j → j ≤ p → ((ceV j : Nat) : Int) ∈ T)
    (hnew : ceW p b ∉ T) (hlen : T.length < 1024)
    (hbig : ∀ x ∈ T, x < ceW p b) :
    (ceGroup p b).foldl (specStreamStep ceBH) (T, 0) = (T ++ [ceW p b], 0) := by
  unfold ceGroup
  rw [List.foldl_append]
  have hz : (List.replicate p 0).foldl (specStreamStep ceBH) (T, 0) = (T, ceV p) := by
    have h := spec_zeros p 0 T (by omega) (fun j h1 h2 => hmem j h1 (by omega))
    rw [show ceV 0 = 0 from rfl, show (0 : Nat) + p = p from by omega] at h
    exact h
  rw [hz]
  show specStreamStep ceBH (T, ceV p) b = _
  rw [spec_step_new T (ceV p) b (ceW_bound hp hb) hnew hlen,
    show ((ceV p * 256 + b + 1 : Nat) : Int) = ceW p b from rfl,
    orderedInsert_eq_append hbig]

theorem ceBandAsc_length (p n : Nat) : (ceBandAsc p n).length = n := by
  unfold ceBandAsc
  rw [List.length_map, List.length_range]

theorem mem_ceBandAsc {p n : Nat} {x : Int} :
    x ∈ ceBandAsc p n ↔ ∃ b, b < n ∧ x = ceW p b := by
  unfold ceBandAsc
  simp only [List.mem_map, List.mem_range]
  constructor
  · rintro ⟨b, hb, rfl⟩
    exact ⟨b, hb, rfl⟩
  · rintro ⟨b, hb, rfl⟩
    exact ⟨b, hb, rfl⟩

theorem ceBandAsc_succ (p n : Nat) :
    ceBandAsc p (n + 1) = ceBandAsc p n ++ [ceW p n] := by
  unfold ceBandAsc
  rw [List.range_succ, List.map_append]
  rfl

theorem spec_phase : ∀ (p n : Nat) (T : List Int), p ≤ 3 → n ≤ 256 →
    (∀ j, 1 ≤ j → j ≤ p → ((ceV j : Nat) : Int) ∈ T) →
    (∀ x ∈ T, x < ceW p 0) →
    T.length + n ≤ 1024 →
    (cePhase p n).foldl (specStreamStep ceBH) (T, 0) = (T ++ ceBandAsc p n, 0)
  | p, 0, T, _, _, _, _, _ => by simp [cePhase, ceBandAsc]
  | p, n + 1, T, hp, hn, hmem, hbound, hlen => by
    have hstep : cePhase p (n + 1) = cePhase p n ++ ceGroup p n := by
      unfold cePhase
      rw [List.range_succ, List.flatMap_append]
      simp
    rw [hstep, List.foldl_append,
      spec_phase p n T hp (by omega) hmem hbound (by omega)]
    have hW0n : ceW p 0 ≤ ceW p n := by
      unfold ceW
      rw [Nat.cast_le]
      omega
    have hmem' : ∀ j, 1 ≤ j → j ≤ p → ((ceV j : Nat) : Int) ∈ T ++ ceBandAsc p n :=
      fun j h1 h2 => List.mem_append_left _ (hmem j h1 h2)
    have hbig : ∀ x ∈ T ++ ceBandAsc p n, x < ceW p n := by
      intro x hx
      rcases List.mem_append.mp hx with hx | hx
      · have := hbound x hx
        omega
      · rcases mem_ceBandAsc.mp hx with ⟨c, hc, rfl⟩
        exact ceW_lt_ceW_same hc
    have hnew : ceW p n ∉ T ++ ceBandAsc p n := fun hx => lt_irrefl _ (hbig _ hx)
    have hlen' : (T ++ ceBandAsc p n).length < 1024 := by
      rw [List.length_append, ceBandAsc_length]
      omega
    rw [spec_group p n _ hp (by omega) hmem' hnew hlen' hbig,
      List.append_assoc, ← ceBandAsc_succ]

/-- The spec's §4.1 bounded sketch on the counterexample stream keeps
all 1001 values (the sketch never reaches K = 1024, so nothing is ever
evicted or discarded). -/
theorem build_streaming_ce :
    build_streaming ceStream ceBH
      = ((ceBandAsc 0 256 ++ ceBandAsc 1 256) ++ ceBandAsc 2 256) ++ ceBandAsc 3 233 := by
  rw [build_streaming_def, ceStream_def, List.foldl_append, List.foldl_append,
    List.foldl_append, show ceBH.build = 0 from rfl]
  have h0 : (cePhase 0 256).foldl (specStreamStep ceBH) ([], 0)
      = ([] ++ ceBandAsc 0 256, 0) :=
    spec_phase 0 256 [] (by omega) (by omega)
      (fun j h1 h2 => absurd (h1.trans h2) (by norm_num))
      (fun x hx => absurd hx (List.not_mem_nil x))
      (by simp)
  rw [h0, List.nil_append]
  have h1 : (cePhase 1 256).foldl (specStreamStep ceBH) (ceBandAsc 0 256, 0)
      = (ceBandAsc 0 256 ++ ceBandAsc 1 256, 0) := by
    refine spec_phase 1 256 _ (by omega) (by omega) ?_ ?_ ?_
    · intro j hj1 hj2
      have hj : j = 1 := by omega
      subst hj
      rw [ceV_cast_eq_ceW 0]
      exact mem_ceBandAsc.mpr ⟨0, by norm_num, rfl⟩
    · intro x hx
      rcases mem_ceBandAsc.mp hx with ⟨b, hb, rfl⟩
      exact ceW_lt_ceW (by norm_num) hb
    · rw [ceBandAsc_length]
      norm_num
  rw [h1]
  have h2 : (cePhase 2 256).foldl (specStreamStep ceBH)
      (ceBandAsc 0 256 ++ ceBandAsc 1 256, 0)
      = ((ceBandAsc 0 256 ++ ceBandAsc 1 256) ++ ceBandAsc 2 256, 0) := by
    refine spec_phase 2 256 _ (by omega) (by omega) ?_ ?_ ?_
    · intro j hj1 hj2
      interval_cases j
      · rw [ceV_cast_eq_ceW 0]
        exact List.mem_append_left _ (mem_ceBandAsc.mpr ⟨0, by norm_num, rfl⟩)
      · rw [ceV_cast_eq_ceW 1]
        exact List.mem_append_right _ (mem_ceBandAsc.mpr ⟨0, by norm_num, rfl⟩)
    · intro x hx
      rcases List.mem_append.mp hx with hx | hx <;>
        rcases mem_ceBandAsc.mp hx with ⟨b, hb, rfl⟩
      · exact ceW_lt_ceW (by norm_num) hb
      · exact ceW_lt_ceW (by norm_num) hb
    · rw [List.length_append, ceBandAsc_length, ceBandAsc_length]
      norm_num
  rw [h2]
  have h3 : (cePhase 3 233).foldl (specStreamStep ceBH)
      ((ceBandAsc 0 256 ++ ceBandAsc 1 256) ++ ceBandAsc 2 256, 0)
      = (((ceBandAsc 0 256 ++ ceBandAsc 1 256) ++ ceBandAsc 2 256) ++ ceBandAsc 3 233,
        0) := by
    refine spec_phase 3 233 _ (by omega) (by omega) ?_ ?_ ?_
    · intro j hj1 hj2
      interval_cases j
      · rw [ceV_cast_eq_ceW 0]
        exact List.mem_append_left _
          (List.mem_append_left _ (mem_ceBandAsc.mpr ⟨0, by norm_num, rfl⟩))
      · rw [ceV_cast_eq_ceW 1]
        exact List.mem_append_left _
          (List.mem_append_right _ (mem_ceBandAsc.mpr ⟨0, by norm_num, rfl⟩))
      · rw [ceV_cast_eq_ceW 2]
        exact List.mem_append_right _ (mem_ceBandAsc.mpr ⟨0, by norm_num, rfl⟩)
    · intro x hx
      rcases List.mem_append.mp hx with hx | hx
      · rcases List.mem_append.mp hx with hx | hx <;>
          rcases mem_ceBandAsc.mp hx with ⟨b, hb, rfl⟩
        · exact ceW_lt_ceW (by norm_num) hb
        · exact ceW_lt_ceW (by norm_num) hb
      · rcases mem_ceBandAsc.mp hx with ⟨b, hb, rfl⟩
        exact ceW_lt_ceW (by norm_num) hb
    · rw [List.length_append, List.length_append, ceBandAsc_length,
        ceBandAsc_length, ceBandAsc_length]
      norm_num
  rw [h3]

theorem build_streaming_ce_length : (build_streaming ceStream ceBH).length = 1001 := by
  rw [build_streaming_ce]
  simp only [List.length_append, ceBandAsc_length]

/-- C1 counterexample: on the concrete hasher factory `ceBH` and the
2468-byte stream `ceStream` (1001 distinct hashes), `from_bytes_stream`
does not return the LZDict of the §4.1 online streaming algorithm: the
code keeps only the 1000 smallest hashes (its final `take(1000)`), while
the §4.1 sketch with K = 1024 keeps all 1001. -/
theorem C1_counterexample :
    from_bytes_stream ceStream ceBH ≠ build_streaming ceStream ceBH := by
  have hcode : (from_bytes_stream ceStream ceBH).length = 1000 := by
    rw [from_bytes_stream_def, List.length_take, List.length_insertionSort,
      streamSeen_ce_length]
    omega
  have hspec := build_streaming_ce_length
  intro h
  rw [h, hspec] at hcode
  exact absurd hcode (by norm_num)

theorem streamFold_length_le {σ : Type} (bh : BuildHasher σ) :
    ∀ (seq : List Nat) (acc : List Int × σ),
      acc.1.length ≤ (seq.foldl (streamStep bh) acc).1.length
  | [], _ => le_refl _
  | b :: seq, acc => by
    rw [List.foldl_cons]
    refine le_trans ?_ (streamFold_length_le bh seq (streamStep bh acc b))
    by_cases hmem : toI64 (bh.finish (bh.write_u8 acc.2 b)) ∈ acc.1
    · simp only [streamStep, if_pos hmem]
      exact le_refl _
    · simp only [streamStep, if_neg hmem, List.length_cons]
      omega

/-- While at most 1000 distinct hashes occur, the unbounded-set code fold
and the spec's bounded-sketch fold stay in lock step: the spec sketch is
the sorted permutation of the code's set and the hasher states agree. -/
theorem stream_spec_agree {σ : Type} (bh : BuildHasher σ) :
    ∀ (seq : List Nat) (S T : List Int) (hs : σ),
      T.Perm S → T.Sorted (· < ·) →
      (seq.foldl (streamStep bh) (S, hs)).1.length ≤ 1000 →
      (seq.foldl (specStreamStep bh) (T, hs)).1.Perm
          (seq.foldl (streamStep bh) (S, hs)).1
        ∧ (seq.foldl (specStreamStep bh) (T, hs)).1.Sorted (· < ·)
  | [], S, T, hs, hperm, hsort, _ => ⟨hperm, hsort⟩
  | b :: seq, S, T, hs, hperm, hsort, hlen => by
    rw [List.foldl_cons] at hlen
    rw [List.foldl_cons, List.foldl_cons]
    by_cases hmem : toI64 (bh.finish (bh.write_u8 hs b)) ∈ S
    · have hmemT : toI64 (bh.finish (bh.write_u8 hs b)) ∈ T := hperm.mem_iff.mpr hmem
      have hstep1 : streamStep bh (S, hs) b = (S, bh.write_u8 hs b) := by
        simp only [streamStep, if_pos hmem]
      have hstep2 : specStreamStep bh (T, hs) b = (T, bh.write_u8 hs b) := by
        simp only [specStreamStep, if_pos hmemT]
      rw [hstep1] at hlen
      rw [hstep1, hstep2]
      exact stream_spec_agree bh seq S T _ hperm hsort hlen
    · have hmemT : toI64 (bh.finish (bh.write_u8 hs b)) ∉ T :=
        fun h => hmem (hperm.mem_iff.mp h)
      have hstep1 : streamStep bh (S, hs) b
          = (toI64 (bh.finish (bh.write_u8 hs b)) :: S, bh.build) := by
        simp only [streamStep, if_neg hmem]
      rw [hstep1] at hlen
      have hTlen : T.length < 1024 := by
        have h1 := streamFold_length_le bh seq
          (toI64 (bh.finish (bh.write_u8 hs b)) :: S, bh.build)
        have h2 : T.length = S.length := hperm.length_eq
        simp only [List.length_cons] at h1
        omega
      have hstep2 : specStreamStep bh (T, hs) b
          = (List.orderedInsert (· ≤ ·) (toI64 (bh.finish (bh.write_u8 hs b))) T,
            bh.build) := by
        simp only [specStreamStep, if_neg hmemT, if_pos hTlen]
      rw [hstep1, hstep2]
      exact stream_spec_agree bh seq _ _ _
        ((List.perm_orderedInsert _ _ T).trans (hperm.cons _))
        (sorted_lt_orderedInsert hsort hmemT) hlen

/-- C1 amended: `from_bytes_stream` is the reset-on-new streaming pass
over an *unbounded* distinct-hash set, finally sorted and truncated to
the 1000 smallest values; it coincides with the §4.1 online bounded
sketch (K = 1024, evict-max) exactly on those inputs that yield at most
1000 distinct hashes. -/
theorem C1_agree_le_1000 {σ : Type} (bh : BuildHasher σ) (seq : List Nat)
    (hsmall : (streamSeen seq bh).length ≤ 1000) :
    from_bytes_stream seq bh = build_streaming seq bh := by
  have hlen' : (seq.foldl (streamStep bh) ([], bh.build)).1.length ≤ 1000 := by
    rw [← streamSeen_def]
    exact hsmall
  obtain ⟨hperm, hsort⟩ := stream_spec_agree bh seq [] [] bh.build
    (List.Perm.refl []) List.sorted_nil hlen'
  rw [from_bytes_stream_def, build_streaming_def]
  have hsorted_le : (seq.foldl (specStreamStep bh) ([], bh.build)).1.Sorted (· ≤ ·) :=
    hsort.imp fun h => le_of_lt h
  have heq : List.insertionSort (· ≤ ·) (streamSeen seq bh)
      = (seq.foldl (specStreamStep bh) ([], bh.build)).1 := by
    refine List.eq_of_perm_of_sorted ?_ (List.sorted_insertionSort _ _) hsorted_le
    rw [streamSeen_def]
    exact (List.perm_insertionSort _ _).trans hperm.symm
  rw [heq]
  apply List.take_of_length_le
  rw [hperm.length_eq]
  exact hlen'

/-- Witness for `C1_agree_le_1000` on the 2-byte stream `[0, 0]`. -/
theorem C1_agree_le_1000_witness :
    (streamSeen [0, 0] ceBH).length ≤ 1000
    ∧ from_bytes_stream [0, 0] ceBH = build_streaming [0, 0] ceBH :=
  ⟨by decide, C1_agree_le_1000 ceBH [0, 0] (by decide)⟩

end Lzjd
